import Mathlib

/-!
Shallow embedding of the fulltext-index engine (tokenizer, inverted index,
query engine) and proofs checking its specification claims.

Strings are modelled as lists of characters (`Str`), mirroring the Rust
code's iteration over Unicode code points.  The Unicode data the program
takes from the Rust standard library — the `char::is_alphanumeric`
character class and the `str::to_lowercase` case folding (which is
one-to-many: `"İ".to_lowercase() = "i̇"`) — is a parameter of the
embedding, a `CharTables` value threaded through every function that the
source feeds through those primitives; every general theorem holds for
every instantiation of the tables, in particular for the real Unicode
ones, and each concrete evaluation instantiates them with a table that
agrees with the real Unicode data on every character occurring in that
input (stated in the table's doc comment).  Byte lengths (`str::len()`)
are computed by a UTF-8 encoder `toUtf8`/`utf8Len`.  Rust `HashMap`s
keyed by term or document id are modelled as association lists with
first-insertion key order; every map operation used by the source
(entry-or-insert, get, overwrite-insert) is mirrored by a corresponding
association-list operation.  `f64` scores are modelled as exact real
numbers, with `Real.logb 10` for `f64::log10`; the score-descending
stable sort done by `sort_by(|a, b| b.score.partial_cmp(&a.score))` is
modelled by a stable insertion sort `sortDesc`.  The snippet generator
exists in two models: a character-level one (`generate_snippet`, carried
inside search results) and a byte-accurate one (`generate_snippet_bytes`)
in which `none` models the Rust slice panic of `&content[start..end]`.
-/

/-- The Unicode tables the program obtains from the Rust standard
library: `char::is_alphanumeric` and `str::to_lowercase`.  They are a
parameter of the embedding; concrete instantiations below document on
which characters they agree with the real tables. -/
structure CharTables where
  isAlphanumeric : Char → Bool
  toLowercase : List Char → List Char

/-- The UTF-8 encoding of one scalar value (the bytes Rust stores for a
`char`). -/
def utf8EncodeChar (c : Char) : List Nat :=
  let n := c.toNat
  if n < 128 then [n]
  else if n < 2048 then [192 + n / 64, 128 + n % 64]
  else if n < 65536 then [224 + n / 4096, 128 + (n / 64) % 64, 128 + n % 64]
  else [240 + n / 262144, 128 + (n / 4096) % 64, 128 + (n / 64) % 64, 128 + n % 64]

/-- The UTF-8 bytes of a string (Rust `str::as_bytes`). -/
def toUtf8 (s : List Char) : List Nat := (s.map utf8EncodeChar).flatten

/-- The UTF-8 byte length of a string (Rust `str::len`). -/
def utf8Len (s : List Char) : Nat := (toUtf8 s).length

/-- The character tables restricted to ASCII: `Char.isAlphanum` and
per-character `Char.toLower`.  They agree with Rust's
`char::is_alphanumeric` and `str::to_lowercase` on every ASCII string,
and `toLowercase` also agrees on strings containing `'ß'` (which Unicode
lowercases to itself); they are used to instantiate theorems at concrete
inputs made of such characters only. -/
def asciiTables : CharTables :=
  { isAlphanumeric := Char.isAlphanum, toLowercase := fun s => s.map Char.toLower }

abbrev Str := List Char

/-- `src/tokenizer.rs` `Token`: one retained lexical unit. -/
structure Token where
  text : Str
  position : Nat
  start_offset : Nat
  end_offset : Nat
  deriving DecidableEq

/-- `src/tokenizer.rs` `Tokenizer`: stop-word set and length bounds. -/
structure Tokenizer where
  stop_words : List Str
  min_token_length : Nat
  max_token_length : Nat
  deriving DecidableEq

/-- The default stop-word list of `Tokenizer::new` (kept verbatim,
duplicates included). -/
def defaultStopWords : List Str :=
  (["a", "an", "and", "are", "as", "at", "be", "been", "by", "for",
    "from", "has", "he", "in", "is", "it", "its", "of", "on", "that",
    "the", "to", "was", "will", "with", "the", "this", "these", "those",
    "i", "you", "we", "they", "them", "their", "what", "which", "who",
    "when", "where", "why", "how", "all", "would", "there", "been"]).map String.toList

/-- `Tokenizer::new`: default configuration (min length 2, max length 50). -/
def Tokenizer.new : Tokenizer :=
  { stop_words := defaultStopWords, min_token_length := 2, max_token_length := 50 }

/-- `Tokenizer::create_token`: lowercase the word with `str::to_lowercase`,
reject it when its UTF-8 byte length (`normalized.len()`) is out of bounds
or it is a stop word, otherwise build the token. -/
def Tokenizer.create_token (self : Tokenizer) (tbl : CharTables) (text : Str)
    (position start stop : Nat) : Option Token :=
  let normalized := tbl.toLowercase text
  if utf8Len normalized < self.min_token_length ∨
      self.max_token_length < utf8Len normalized then
    none
  else if normalized ∈ self.stop_words then
    none
  else
    some { text := normalized, position := position, start_offset := start, end_offset := stop }

/-- The scanning loop of `Tokenizer::tokenize`: `i` is the index of the next
character, `position` the count of tokens emitted so far, `cur` the pending
alphanumeric run and `start` its starting index. -/
def Tokenizer.tokenizeGo (self : Tokenizer) (tbl : CharTables) :
    Str → Nat → Nat → Str → Nat → List Token
  | [], i, position, cur, start =>
    if cur.isEmpty then []
    else
      match self.create_token tbl cur position start i with
      | some t => [t]
      | none => []
  | c :: rest, i, position, cur, start =>
    if tbl.isAlphanumeric c then
      self.tokenizeGo tbl rest (i + 1) position (cur ++ [c])
        (if cur.isEmpty then i else start)
    else if cur.isEmpty then
      self.tokenizeGo tbl rest (i + 1) position [] start
    else
      match self.create_token tbl cur position start i with
      | some t => t :: self.tokenizeGo tbl rest (i + 1) (position + 1) [] start
      | none => self.tokenizeGo tbl rest (i + 1) position [] start

/-- `Tokenizer::tokenize`: scan the text, emitting a token per retained
maximal alphanumeric run. -/
def Tokenizer.tokenize (self : Tokenizer) (tbl : CharTables) (text : Str) : List Token :=
  self.tokenizeGo tbl text 0 0 [] 0

/-- Modelled from the spec: the sequence of maximal alphanumeric runs of a
text with respect to a given alphanumeric character class, in scan order
(the candidate words of spec section 4.1). -/
def wordsGo (isAlnum : Char → Bool) : Str → Str → List Str
  | [], cur => if cur.isEmpty then [] else [cur]
  | c :: rest, cur =>
    if isAlnum c then wordsGo isAlnum rest (cur ++ [c])
    else if cur.isEmpty then wordsGo isAlnum rest []
    else cur :: wordsGo isAlnum rest []

/-- Modelled from the spec: all maximal alphanumeric runs of a text. -/
def wordsOf (isAlnum : Char → Bool) (text : Str) : List Str := wordsGo isAlnum text []

/-- A candidate word is kept when its lowercased form has a UTF-8 byte
length within the configured bounds and is not a stop word (the amended
reading of the spec's length rule, matching `normalized.len()` in the
source). -/
def keepWord (tbl : CharTables) (self : Tokenizer) (w : Str) : Bool :=
  let n := tbl.toLowercase w
  decide (self.min_token_length ≤ utf8Len n ∧ utf8Len n ≤ self.max_token_length ∧
    n ∉ self.stop_words)

/-! ## Documents (`src/document.rs`) -/

/-- `src/document.rs` `Document`. -/
structure Document where
  id : Nat
  title : Str
  content : Str
  metadata : List (Str × Str)
  deriving DecidableEq

/-- `Document::new`. -/
def Document.new (id : Nat) (title content : Str) : Document :=
  { id := id, title := title, content := content, metadata := [] }

/-- `Document::full_text`: `format!("{} {}", title, content)`. -/
def Document.full_text (d : Document) : Str := d.title ++ [' '] ++ d.content

/-- `src/document.rs` `DocumentStore`: id-keyed map plus the next fresh id. -/
structure DocumentStore where
  documents : List (Nat × Document)
  next_id : Nat
  deriving DecidableEq

/-- `DocumentStore::new`. -/
def DocumentStore.new : DocumentStore := { documents := [], next_id := 0 }

/-- `DocumentStore::add_document`: allocate the next id and store the
document under it; returns the id and the new store. -/
def DocumentStore.add_document (self : DocumentStore) (title content : Str) :
    Nat × DocumentStore :=
  (self.next_id,
    { documents := self.documents ++ [(self.next_id, Document.new self.next_id title content)],
      next_id := self.next_id + 1 })

/-- `DocumentStore::get_document`. -/
def DocumentStore.get_document (self : DocumentStore) (id : Nat) : Option Document :=
  match self.documents.find? (fun p => p.1 == id) with
  | some p => some p.2
  | none => none

/-- `DocumentStore::total_documents`. -/
def DocumentStore.total_documents (self : DocumentStore) : Nat :=
  self.documents.length

/-! ## Inverted index (`src/index.rs`) -/

/-- `src/index.rs` `FieldType`. -/
inductive FieldType where
  | Title
  | Content
  deriving DecidableEq

/-- `src/index.rs` `TermPosition`. -/
structure TermPosition where
  position : Nat
  field : FieldType
  deriving DecidableEq

/-- `src/index.rs` `PostingEntry`. -/
structure PostingEntry where
  doc_id : Nat
  term_frequency : Nat
  positions : List TermPosition
  deriving DecidableEq

/-- `src/index.rs` `PostingList`. -/
structure PostingList where
  term : Str
  document_frequency : Nat
  postings : List PostingEntry
  deriving DecidableEq

/-- `PostingList::new`. -/
def PostingList.new (term : Str) : PostingList :=
  { term := term, document_frequency := 0, postings := [] }

/-- `PostingList::add_posting`: append one entry (term frequency = number of
positions) and bump the document frequency. -/
def PostingList.add_posting (self : PostingList) (doc_id : Nat)
    (positions : List TermPosition) : PostingList :=
  { self with
    postings := self.postings ++
      [{ doc_id := doc_id, term_frequency := positions.length, positions := positions }],
    document_frequency := self.document_frequency + 1 }

/-- Lookup in an association list (the model of `HashMap::get`). -/
def lookupA {β : Type} : List (Str × β) → Str → Option β
  | [], _ => none
  | (k', v) :: rest, k => if k' = k then some v else lookupA rest k

/-- The model of `term_positions.entry(term).or_insert_with(Vec::new).extend(ps)`:
extend the entry in place, appending a fresh key at the end when absent. -/
def extendEntry : List (Str × List TermPosition) → Str → List TermPosition →
    List (Str × List TermPosition)
  | [], k, v => [(k, v)]
  | (k', v') :: rest, k, v =>
    if k' = k then (k', v' ++ v) :: rest else (k', v') :: extendEntry rest k v

/-- The model of `index.entry(term).or_insert_with(|| PostingList::new(term))`
followed by `add_posting(doc_id, positions)`. -/
def indexAddPosting : List (Str × PostingList) → Str → Nat → List TermPosition →
    List (Str × PostingList)
  | [], term, d, ps => [(term, (PostingList.new term).add_posting d ps)]
  | (t, pl) :: rest, term, d, ps =>
    if t = term then (t, pl.add_posting d ps) :: rest
    else (t, pl) :: indexAddPosting rest term d ps

/-- `src/index.rs` `InvertedIndex`. -/
structure InvertedIndex where
  index : List (Str × PostingList)
  document_store : DocumentStore
  total_terms : Nat
  tokenizer : Tokenizer
  deriving DecidableEq

/-- `InvertedIndex::new`. -/
def InvertedIndex.new : InvertedIndex :=
  { index := [], document_store := DocumentStore.new, total_terms := 0,
    tokenizer := Tokenizer.new }

/-- `InvertedIndex::extract_terms`: group the tokens of one field by term,
keeping each term's positions (tagged with the field) in token order. -/
def InvertedIndex.extract_terms (self : InvertedIndex) (tbl : CharTables) (text : Str)
    (field : FieldType) : List (Str × List TermPosition) :=
  (self.tokenizer.tokenize tbl text).foldl
    (fun m token => extendEntry m token.text [{ position := token.position, field := field }])
    []

/-- `InvertedIndex::add_document`: store the document, tokenize title and
content separately, merge the two per-term position maps (title first,
concatenating), then append one posting per distinct term. -/
def InvertedIndex.add_document (self : InvertedIndex) (tbl : CharTables)
    (title content : Str) : InvertedIndex :=
  let doc_id := (self.document_store.add_document title content).1
  let store' := (self.document_store.add_document title content).2
  let title_terms := self.extract_terms tbl title FieldType.Title
  let content_terms := self.extract_terms tbl content FieldType.Content
  let tp1 := title_terms.foldl (fun m e => extendEntry m e.1 e.2) []
  let term_positions := content_terms.foldl (fun m e => extendEntry m e.1 e.2) tp1
  { index := term_positions.foldl (fun ix e => indexAddPosting ix e.1 doc_id e.2) self.index,
    document_store := store',
    total_terms := self.total_terms + term_positions.length,
    tokenizer := self.tokenizer }

/-- `InvertedIndex::get_document`. -/
def InvertedIndex.get_document (self : InvertedIndex) (id : Nat) : Option Document :=
  self.document_store.get_document id

/-- `InvertedIndex::total_documents`. -/
def InvertedIndex.total_documents (self : InvertedIndex) : Nat :=
  self.document_store.total_documents

/-- `InvertedIndex::get_posting_list`: case-insensitive term lookup. -/
def InvertedIndex.get_posting_list (self : InvertedIndex) (tbl : CharTables) (term : Str) :
    Option PostingList :=
  lookupA self.index (tbl.toLowercase term)

/-- An index built by a sequence of `add_document` calls on a fresh index:
the reachable index states. -/
def buildIndex (tbl : CharTables) (docs : List (Str × Str)) : InvertedIndex :=
  docs.foldl (fun ix p => ix.add_document tbl p.1 p.2) InvertedIndex.new

/-- The terms retained from one `add_document(title, content)` call: the
texts of the tokens of either field. -/
def retainedTerms (tbl : CharTables) (tok : Tokenizer) (title content : Str) : List Str :=
  (tok.tokenize tbl title ++ tok.tokenize tbl content).map Token.text

/-! ## Query engine (`src/search.rs`) -/

/-- `src/search.rs` `SearchResult` (the `f64` score is modelled as a real). -/
structure SearchResult where
  doc_id : Nat
  score : ℝ
  title : Str
  snippet : Str

/-- `src/search.rs` `BooleanOperator`. -/
inductive BooleanOperator where
  | And
  | Or
  | Not
  deriving DecidableEq

/-- `src/search.rs` `Query`. -/
inductive Query where
  | Term : Str → Query
  | Boolean : BooleanOperator → List Query → Query
  | Phrase : List Str → Query
  | Wildcard : Str → Query

/-- `Searcher::calculate_tfidf`:
`(tf.log10() + 1.0) * ((total as f64) / (df as f64)).log10()`. -/
noncomputable def calculate_tfidf (term_frequency document_frequency total_docs : Nat) : ℝ :=
  (Real.logb 10 term_frequency + 1) * Real.logb 10 (total_docs / (document_frequency : ℝ))

/-- Stable insertion of one result into a score-descending list: the new
element goes after every element whose score is at least as large (the
order produced by Rust's stable `sort_by(|a, b| b.score.partial_cmp(&a.score))`). -/
noncomputable def insertDesc (r : SearchResult) : List SearchResult → List SearchResult
  | [] => [r]
  | x :: xs => if x.score < r.score then r :: x :: xs else x :: insertDesc r xs

/-- The model of `results.sort_by(|a, b| b.score.partial_cmp(&a.score).unwrap())`:
a stable sort into non-increasing score order. -/
noncomputable def sortDesc (l : List SearchResult) : List SearchResult :=
  l.foldl (fun acc r => insertDesc r acc) []

/-- `Vec::dedup_by_key(|r| r.doc_id)`: remove only consecutive results with
equal document id, keeping the first of each run. -/
def dedupByKeyAdj : List SearchResult → List SearchResult
  | [] => []
  | [x] => [x]
  | x :: y :: xs =>
    if x.doc_id = y.doc_id then dedupByKeyAdj (x :: xs)
    else x :: dedupByKeyAdj (y :: xs)

/-- First index at which `needle` occurs in `hay` (the model of Rust
`str::find` for a substring pattern). -/
def findSub (hay needle : Str) : Option Nat :=
  (List.range (hay.length + 1)).find? (fun i => needle.isPrefixOf (hay.drop i))

/-- Substring containment, the model of Rust `str::contains`. -/
def strContains (hay needle : Str) : Bool :=
  (findSub hay needle).isSome

/-- The ellipsis `"..."`. -/
def dots : Str := ['.', '.', '.']

/-- `Searcher::generate_snippet`, character-level model (the one carried
inside search results): case-insensitive search for the query in the
content; when found, a window of 50 characters around the occurrence with
ellipses at cut edges, otherwise the first 100 characters plus an
ellipsis.  This treats positions and lengths as code-point counts; the
byte-accurate model, in which the source's slice of `content` at offsets
found in the lowercased content can panic, is `generate_snippet_bytes`
below. -/
def generate_snippet (tbl : CharTables) (content query : Str) : Str :=
  let lower_content := tbl.toLowercase content
  let lower_query := tbl.toLowercase query
  match findSub lower_content lower_query with
  | some pos =>
    let start := pos - 50
    let stop := min (pos + query.length + 50) content.length
    (if 0 < start then dots else []) ++ (content.drop start).take (stop - start) ++
      (if stop < content.length then dots else [])
  | none => content.take 100 ++ dots

/-- `Searcher::contains_phrase`: case-insensitive substring search of the
space-joined phrase. -/
def contains_phrase (tbl : CharTables) (text : Str) (terms : List Str) : Bool :=
  let text_lower := tbl.toLowercase text
  let phrase_lower := tbl.toLowercase (List.intercalate [' '] terms)
  strContains text_lower phrase_lower

/-- `Searcher::search_term`: look up the lowercased term, build one result
per posting whose document is present, score it with TF-IDF, and sort by
descending score. -/
noncomputable def InvertedIndex.search_term (self : InvertedIndex) (tbl : CharTables)
    (term : Str) : List SearchResult :=
  let normalized_term := tbl.toLowercase term
  let base :=
    match self.get_posting_list tbl normalized_term with
    | none => []
    | some posting_list =>
      posting_list.postings.filterMap (fun posting =>
        match self.get_document posting.doc_id with
        | none => none
        | some doc =>
          some { doc_id := posting.doc_id,
                 score := calculate_tfidf posting.term_frequency
                   posting_list.document_frequency self.total_documents,
                 title := doc.title,
                 snippet := generate_snippet tbl doc.content normalized_term })
  sortDesc base

/-- The model of `HashMap::insert(result.doc_id, result)`: overwrite the
existing entry for the id, else append. -/
noncomputable def insertResult (m : List (Nat × SearchResult)) (r : SearchResult) :
    List (Nat × SearchResult) :=
  if (m.map Prod.fst).contains r.doc_id then
    m.map (fun p => if p.1 = r.doc_id then (p.1, r) else p)
  else m ++ [(r.doc_id, r)]

/-- Numeric lookup in an association list keyed by document id. -/
def lookupN {β : Type} : List (Nat × β) → Nat → Option β
  | [], _ => none
  | (k', v) :: rest, k => if k' = k then some v else lookupN rest k

/-- Set intersection on document-id lists (`HashSet::intersection`),
keeping the left operand's order. -/
def interIds (a b : List Nat) : List Nat := a.filter (fun d => b.contains d)

/-- Set union on document-id lists (`HashSet::union`). -/
def unionIds (a b : List Nat) : List Nat := a ++ b.filter (fun d => ¬ a.contains d)

/-- Set difference on document-id lists (`HashSet::difference`). -/
def diffIds (a b : List Nat) : List Nat := a.filter (fun d => ¬ b.contains d)

/-- `Iterator::reduce` over a list of id sets. -/
def reduceSets (f : List Nat → List Nat → List Nat) : List (List Nat) → List Nat
  | [] => []
  | s :: rest => rest.foldl f s

/-- The combination step of `Searcher::search_boolean`, taking the already
evaluated sub-query result lists: record every result in a last-writer-wins
map keyed by document id, combine the per-sub-query id sets with the
operator, materialize the combined ids from the map, and sort by
descending score.  `NOT` demands exactly two sub-queries, and an empty
sub-query list yields the empty result. -/
noncomputable def booleanCombine (operator : BooleanOperator)
    (step : List (List SearchResult)) : List SearchResult :=
  if step.isEmpty then []
  else
    let result_sets := step.map (fun results => (results.map SearchResult.doc_id).dedup)
    let all_results := (step.flatten).foldl insertResult []
    let final_doc_ids :=
      match operator with
      | BooleanOperator.And => reduceSets interIds result_sets
      | BooleanOperator.Or => reduceSets unionIds result_sets
      | BooleanOperator.Not =>
        if result_sets.length = 2 then
          diffIds result_sets[0]! result_sets[1]!
        else []
    sortDesc (final_doc_ids.filterMap (fun doc_id => lookupN all_results doc_id))

/-- `Searcher::search_phrase`: seed candidates from the first term's
postings, intersect with each later term's postings, then keep the
candidates whose stored document contains the space-joined phrase; each
kept result scores `1.0`. -/
noncomputable def InvertedIndex.search_phrase (self : InvertedIndex) (tbl : CharTables)
    (terms : List Str) : List SearchResult :=
  match terms with
  | [] => []
  | first :: rest =>
    let first_term := tbl.toLowercase first
    let candidates0 :=
      match self.get_posting_list tbl first_term with
      | none => []
      | some posting_list => (posting_list.postings.map PostingEntry.doc_id).dedup
    let candidates := rest.foldl
      (fun cands term =>
        match self.get_posting_list tbl (tbl.toLowercase term) with
        | none => []
        | some posting_list =>
          ((posting_list.postings.map PostingEntry.doc_id).filter
            (fun d => cands.contains d)).dedup)
      candidates0
    candidates.filterMap (fun doc_id =>
      match self.get_document doc_id with
      | none => none
      | some doc =>
        if contains_phrase tbl doc.full_text terms then
          some { doc_id := doc_id, score := (1 : ℝ), title := doc.title,
                 snippet := generate_snippet tbl doc.content (List.intercalate [' '] terms) }
        else none)

/-- `Searcher::search_wildcard`: classify the pattern (prefix, suffix or
containment), run the term query for every matching vocabulary term,
accumulate, sort by descending score, then remove only adjacent duplicate
document ids. -/
noncomputable def InvertedIndex.search_wildcard (self : InvertedIndex) (tbl : CharTables)
    (pattern : Str) : List SearchResult :=
  let pattern_lower := tbl.toLowercase pattern
  let pref := (pattern_lower.reverse.dropWhile (fun c => c = '*')).reverse
  let suff := pattern_lower.dropWhile (fun c => c = '*')
  let endsStar := pattern_lower.getLast? = some '*'
  let startsStar := pattern_lower.head? = some '*'
  let isPref := endsStar ∧ ¬ startsStar
  let isSuff := startsStar ∧ ¬ endsStar
  let accumulated := self.index.foldl
    (fun acc p =>
      let isMatch :=
        if isPref then pref.isPrefixOf p.1
        else if isSuff then suff.isSuffixOf p.1
        else strContains p.1 (pattern_lower.filter (fun c => c ≠ '*'))
      if isMatch then acc ++ self.search_term tbl p.1 else acc)
    []
  dedupByKeyAdj (sortDesc accumulated)

/-- `Searcher::execute_query`: dispatch on the query variant. -/
noncomputable def InvertedIndex.execute_query (self : InvertedIndex) (tbl : CharTables) :
    Query → List SearchResult
  | Query.Term term => self.search_term tbl term
  | Query.Boolean operator queries =>
    booleanCombine operator (queries.attach.map (fun q => self.execute_query tbl q.1))
  | Query.Phrase terms => self.search_phrase tbl terms
  | Query.Wildcard pattern => self.search_wildcard tbl pattern
decreasing_by
  simp_wf
  have := List.sizeOf_lt_of_mem q.2
  omega

/-- `Searcher::search_boolean`: evaluate every sub-query, then combine. -/
noncomputable def InvertedIndex.search_boolean (self : InvertedIndex) (tbl : CharTables)
    (operator : BooleanOperator) (queries : List Query) : List SearchResult :=
  booleanCombine operator (queries.map (fun q => self.execute_query tbl q))

/-- The keys of an association list. -/
def keysOf {β : Type} (m : List (Str × β)) : List Str := m.map Prod.fst

/-- All positions recorded for key `k` across the entries of a term-position
map, in entry order. -/
def tpOf : List (Str × List TermPosition) → Str → List TermPosition
  | [], _ => []
  | (k', v) :: rest, k => if k' = k then v ++ tpOf rest k else tpOf rest k

/-- The positions (tagged with field `f`) of the tokens of a field whose
text is `k`, in token order. -/
def possOf : List Token → FieldType → Str → List TermPosition
  | [], _, _ => []
  | t :: rest, f, k =>
    if t.text = k then { position := t.position, field := f } :: possOf rest f k
    else possOf rest f k

/-- The posting-list invariants of spec section 3, together with the
freshness bound that makes them inductive. -/
def IndexInv (idx : InvertedIndex) : Prop :=
  ∀ k pl, lookupA idx.index k = some pl →
    pl.document_frequency = pl.postings.length ∧
    (∀ e ∈ pl.postings, e.term_frequency = e.positions.length) ∧
    List.Pairwise (fun a b => a.doc_id ≠ b.doc_id) pl.postings ∧
    ∀ e ∈ pl.postings, e.doc_id < idx.document_store.next_id

/-- A document id has a posting for a term. -/
def hasPostingFor (tbl : CharTables) (idx : InvertedIndex) (t : Str) (d : Nat) : Prop :=
  ∃ pl, idx.get_posting_list tbl t = some pl ∧ d ∈ pl.postings.map PostingEntry.doc_id

/-- Every value stored in the results map is keyed by its own document id. -/
def ResultsMapInv (m : List (Nat × SearchResult)) : Prop := ∀ p ∈ m, p.2.doc_id = p.1

/-- First byte index at which `needle` occurs in `hay` (Rust `str::find`
on the underlying UTF-8 bytes; UTF-8 is self-synchronizing, so byte-level
matches coincide with the string-level ones). -/
def findSubB (hay needle : List Nat) : Option Nat :=
  (List.range (hay.length + 1)).find? (fun i => needle.isPrefixOf (hay.drop i))

/-- The byte offsets that are character boundaries of a string (the
positions at which Rust allows a string to be sliced). -/
def charBoundaries (s : Str) : List Nat :=
  (List.range (s.length + 1)).map (fun i => utf8Len (s.take i))

/-- Rust's `&s[start..stop]` on byte offsets: `none` models the panic that
occurs when the range is reversed, out of range, or not on character
boundaries. -/
def sliceBytes (s : Str) (start stop : Nat) : Option (List Nat) :=
  if start ≤ stop ∧ stop ≤ utf8Len s ∧ start ∈ charBoundaries s ∧ stop ∈ charBoundaries s then
    some (((toUtf8 s).drop start).take (stop - start))
  else none

/-- `Searcher::generate_snippet`, byte-accurate model: the offset returned
by `lower_content.find(&lower_query)` is a byte index into the LOWERCASED
content, and the source slices the ORIGINAL content with it
(`&content[start..end]`); `none` models the Rust panic of that slice.
`end` is clamped with `content.len()` and uses `query.len()`, both UTF-8
byte lengths of the original strings. -/
def generate_snippet_bytes (tbl : CharTables) (content query : Str) : Option (List Nat) :=
  let lower_content := toUtf8 (tbl.toLowercase content)
  let lower_query := toUtf8 (tbl.toLowercase query)
  match findSubB lower_content lower_query with
  | some pos =>
    let start := pos - 50
    let stop := min (pos + utf8Len query + 50) (utf8Len content)
    match sliceBytes content start stop with
    | none => none
    | some mid =>
      some ((if 0 < start then toUtf8 dots else []) ++ mid ++
        (if stop < utf8Len content then toUtf8 dots else []))
  | none => some (toUtf8 (content.take 100) ++ toUtf8 dots)

/-- The character tables extended with the letter `'é'` (U+00E9).  They
agree with Rust's `char::is_alphanumeric` and `str::to_lowercase` on
every ASCII character and on `'é'`: `'é'` is alphanumeric and lowercases
to itself. -/
def accentTables : CharTables :=
  { isAlphanumeric := fun c => c.isAlphanum || c = 'é',
    toLowercase := fun s => s.map Char.toLower }

/-- The character tables extended with `'İ'` (U+0130, LATIN CAPITAL
LETTER I WITH DOT ABOVE).  They agree with Rust's `str::to_lowercase` on
every ASCII character and on `'İ'`, which Unicode lowercases to the
two-character string `"i̇"` (U+0069 followed by U+0307 COMBINING DOT
ABOVE) — the one-to-many case that makes the lowercased text longer than
the original. -/
def dottedTables : CharTables :=
  { isAlphanumeric := Char.isAlphanum,
    toLowercase := fun s =>
      s.flatMap (fun c => if c = 'İ' then ['i', Char.ofNat 775] else [c.toLower]) }

/-! ## Tokenizer lemmas and claim C2 -/

lemma create_token_eq (cfg : Tokenizer) (tbl : CharTables) (w : Str)
    (position start stop : Nat) :
    cfg.create_token tbl w position start stop =
      if keepWord tbl cfg w then
        some { text := tbl.toLowercase w, position := position,
               start_offset := start, end_offset := stop }
      else none := by
  simp only [Tokenizer.create_token, keepWord, decide_eq_true_eq]
  by_cases h1 : utf8Len (tbl.toLowercase w) < cfg.min_token_length ∨
      cfg.max_token_length < utf8Len (tbl.toLowercase w)
  · rw [if_pos h1, if_neg]
    rintro ⟨ha, hb, -⟩
    rcases h1 with h1 | h1 <;> omega
  · rw [if_neg h1]
    by_cases h2 : tbl.toLowercase w ∈ cfg.stop_words
    · rw [if_pos h2, if_neg]
      rintro ⟨-, -, hc⟩
      exact hc h2
    · rw [if_neg h2, if_pos]
      push_neg at h1
      exact ⟨by omega, by omega, h2⟩

lemma tokenizeGo_words (cfg : Tokenizer) (tbl : CharTables) (cs : Str) :
    ∀ (cur : Str) (i position start : Nat),
    ((cfg.tokenizeGo tbl cs i position cur start).map Token.text =
      ((wordsGo tbl.isAlphanumeric cs cur).filter (keepWord tbl cfg)).map tbl.toLowercase) ∧
    ((cfg.tokenizeGo tbl cs i position cur start).map Token.position =
      List.range' position
        ((wordsGo tbl.isAlphanumeric cs cur).filter (keepWord tbl cfg)).length) := by
  induction cs with
  | nil =>
    intro cur i position start
    simp only [Tokenizer.tokenizeGo, wordsGo]
    by_cases hcur : cur.isEmpty
    · simp [hcur]
    · rw [if_neg hcur, if_neg hcur, create_token_eq]
      by_cases hk : keepWord tbl cfg cur
      · simp [hk, List.range'_succ]
      · simp [hk]
  | cons c rest ih =>
    intro cur i position start
    simp only [Tokenizer.tokenizeGo, wordsGo]
    by_cases ha : tbl.isAlphanumeric c
    · rw [if_pos ha, if_pos ha]
      exact ih (cur ++ [c]) (i + 1) position (if cur.isEmpty then i else start)
    · rw [if_neg ha, if_neg ha]
      by_cases hcur : cur.isEmpty
      · rw [if_pos hcur, if_pos hcur]
        exact ih [] (i + 1) position start
      · rw [if_neg hcur, if_neg hcur, create_token_eq]
        by_cases hk : keepWord tbl cfg cur
        · simp only [hk, if_true, List.filter_cons, List.map_cons, List.length_cons,
            List.range'_succ]
          refine ⟨?_, ?_⟩
          · rw [(ih [] (i + 1) (position + 1) start).1]
          · rw [(ih [] (i + 1) (position + 1) start).2]
        · simp only [hk, if_false, List.filter_cons, Bool.false_eq_true]
          have h := ih [] (i + 1) position start
          simpa using h

/-- C2 (amended): for every character table, `tokenize` emits a token for
a maximal alphanumeric run exactly when the lowercased word's UTF-8 byte
length (`normalized.len()` in the source) lies within the configured
bounds and the word is not a stop word; the emitted tokens carry the
lowercased words in scan order, and each token's position is the number
of tokens emitted before it (rejected words consume no position slot). -/
theorem tokenize_keeps_exactly_and_numbers_positions (tbl : CharTables) (cfg : Tokenizer)
    (text : Str) :
    (cfg.tokenize tbl text).map Token.text =
      ((wordsOf tbl.isAlphanumeric text).filter (keepWord tbl cfg)).map tbl.toLowercase ∧
    (cfg.tokenize tbl text).map Token.position =
      List.range (((wordsOf tbl.isAlphanumeric text).filter (keepWord tbl cfg)).length) := by
  have h := tokenizeGo_words cfg tbl text [] 0 0 0
  rw [List.range_eq_range']
  exact ⟨h.1, h.2⟩

/-- C2 counterexample: at the one-letter text `"é"` the program emits a
token, because the source checks `normalized.len()` — the UTF-8 byte
length, 2 for `"é"` — against `min_token_length = 2`; the claim's rule,
which reads "the lowercased word's length" as its number of characters,
requires rejection (1 < 2).  So the claim as stated is false of the
program at this input.  (`accentTables` agrees with Rust's Unicode tables
on every character involved.) -/
theorem tokenize_char_length_counterexample :
    (Tokenizer.new.tokenize accentTables ['é']).map Token.text = [['é']] ∧
    (['é'] : Str).length < Tokenizer.new.min_token_length := by decide

/-! ## Association-list lemmas for the index maps -/

lemma lookupA_eq_none_iff {β : Type} (m : List (Str × β)) (k : Str) :
    lookupA m k = none ↔ k ∉ keysOf m := by
  induction m with
  | nil => simp [lookupA, keysOf]
  | cons e rest ih =>
    obtain ⟨k0, v0⟩ := e
    rw [keysOf, List.map_cons]
    by_cases h : k0 = k
    · simp only [lookupA, if_pos h, List.mem_cons]
      constructor
      · intro hc
        exact absurd hc (by simp)
      · intro hc
        exact absurd (Or.inl h.symm) hc
    · simp only [lookupA, if_neg h, List.mem_cons]
      rw [ih, keysOf]
      constructor
      · intro hc hor
        rcases hor with hor | hor
        · exact h hor.symm
        · exact hc hor
      · intro hc hm
        exact hc (Or.inr hm)

lemma lookupA_extendEntry (m : List (Str × List TermPosition)) (k k' : Str)
    (v : List TermPosition) :
    lookupA (extendEntry m k v) k' =
      if k' = k then some ((lookupA m k).getD [] ++ v) else lookupA m k' := by
  induction m with
  | nil =>
    by_cases h : k' = k
    · subst h
      simp [extendEntry, lookupA]
    · simp [extendEntry, lookupA, h, Ne.symm h]
  | cons e rest ih =>
    obtain ⟨k0, v0⟩ := e
    by_cases h0 : k0 = k
    · subst h0
      by_cases h : k' = k0
      · subst h
        simp [extendEntry, lookupA]
      · simp [extendEntry, lookupA, h, Ne.symm h]
    · by_cases h : k' = k0
      · subst h
        simp [extendEntry, lookupA, h0, Ne.symm h0, ih]
      · simp [extendEntry, lookupA, h0, Ne.symm h, ih]

lemma lookupA_indexAddPosting (ix : List (Str × PostingList)) (term k : Str) (d : Nat)
    (ps : List TermPosition) :
    lookupA (indexAddPosting ix term d ps) k =
      if k = term then
        some (((lookupA ix term).getD (PostingList.new term)).add_posting d ps)
      else lookupA ix k := by
  induction ix with
  | nil =>
    by_cases h : k = term
    · subst h
      simp [indexAddPosting, lookupA]
    · simp [indexAddPosting, lookupA, h, Ne.symm h]
  | cons e rest ih =>
    obtain ⟨k0, v0⟩ := e
    by_cases h0 : k0 = term
    · subst h0
      by_cases h : k = k0
      · subst h
        simp [indexAddPosting, lookupA]
      · simp [indexAddPosting, lookupA, h, Ne.symm h]
    · by_cases h : k = k0
      · subst h
        simp [indexAddPosting, lookupA, h0, Ne.symm h0, ih]
      · simp [indexAddPosting, lookupA, h0, Ne.symm h, ih]

lemma keysOf_extendEntry (m : List (Str × List TermPosition)) (k : Str)
    (v : List TermPosition) :
    keysOf (extendEntry m k v) = if k ∈ keysOf m then keysOf m else keysOf m ++ [k] := by
  induction m with
  | nil => simp [extendEntry, keysOf]
  | cons e rest ih =>
    obtain ⟨k0, v0⟩ := e
    by_cases h0 : k0 = k
    · subst h0
      simp [extendEntry, keysOf]
    · rw [keysOf] at ih ⊢
      simp only [extendEntry, if_neg h0, List.map_cons, keysOf, List.mem_cons]
      rw [ih]
      by_cases hm : k ∈ List.map Prod.fst rest
      · simp [keysOf, hm]
      · simp [keysOf, hm, Ne.symm h0]

lemma nodup_keysOf_extendEntry (m : List (Str × List TermPosition)) (k : Str)
    (v : List TermPosition) (h : (keysOf m).Nodup) : (keysOf (extendEntry m k v)).Nodup := by
  rw [keysOf_extendEntry]
  by_cases hm : k ∈ keysOf m
  · simpa [hm] using h
  · simp [hm, List.nodup_append, h]

lemma tpOf_of_not_mem (m : List (Str × List TermPosition)) (k : Str)
    (h : k ∉ keysOf m) : tpOf m k = [] := by
  induction m with
  | nil => rfl
  | cons e rest ih =>
    obtain ⟨k0, v0⟩ := e
    simp only [keysOf, List.map_cons, List.mem_cons, not_or] at h
    have hne : ¬ k0 = k := fun he => h.1 he.symm
    rw [tpOf, if_neg hne]
    exact ih (by simpa [keysOf] using h.2)

lemma possOf_of_not_mem (tokens : List Token) (f : FieldType) (k : Str)
    (h : k ∉ tokens.map Token.text) : possOf tokens f k = [] := by
  induction tokens with
  | nil => rfl
  | cons t rest ih =>
    simp only [List.map_cons, List.mem_cons, not_or] at h
    have hne : ¬ t.text = k := fun he => h.1 he.symm
    rw [possOf, if_neg hne]
    exact ih h.2

lemma tpOf_eq_getD (m : List (Str × List TermPosition)) (k : Str)
    (h : (keysOf m).Nodup) : tpOf m k = (lookupA m k).getD [] := by
  induction m with
  | nil => rfl
  | cons e rest ih =>
    obtain ⟨k0, v0⟩ := e
    rw [keysOf, List.map_cons, List.nodup_cons] at h
    by_cases h0 : k0 = k
    · subst h0
      rw [tpOf, if_pos rfl, lookupA, if_pos rfl, tpOf_of_not_mem rest k0 h.1]
      simp
    · rw [tpOf, if_neg h0, lookupA, if_neg h0]
      exact ih h.2

lemma lookupA_foldl_entries (entries : List (Str × List TermPosition)) :
    ∀ (m : List (Str × List TermPosition)) (k : Str),
    lookupA (entries.foldl (fun m e => extendEntry m e.1 e.2) m) k =
      if (lookupA m k).isSome ∨ k ∈ keysOf entries
      then some ((lookupA m k).getD [] ++ tpOf entries k) else none := by
  induction entries with
  | nil =>
    intro m k
    cases hm : lookupA m k <;> simp [hm, keysOf, tpOf]
  | cons e rest ih =>
    intro m k
    obtain ⟨k0, v0⟩ := e
    rw [List.foldl_cons, ih (extendEntry m k0 v0) k, lookupA_extendEntry]
    by_cases h0 : k = k0
    · subst h0
      rw [if_pos rfl]
      have h1 : (some ((lookupA m k).getD [] ++ v0)).isSome = true ∨ k ∈ keysOf rest :=
        Or.inl rfl
      rw [if_pos h1, Option.getD_some]
      have h2 : (lookupA m k).isSome = true ∨ k ∈ keysOf ((k, v0) :: rest) :=
        Or.inr (by simp [keysOf])
      rw [if_pos h2, tpOf, if_pos rfl, List.append_assoc]
    · have hne : ¬ k0 = k := fun he => h0 he.symm
      rw [if_neg h0, tpOf, if_neg hne]
      by_cases hc : (lookupA m k).isSome = true ∨ k ∈ keysOf rest
      · have hc' : (lookupA m k).isSome = true ∨ k ∈ keysOf ((k0, v0) :: rest) := by
          rcases hc with hc | hc
          · exact Or.inl hc
          · exact Or.inr (by
              simp only [keysOf, List.map_cons, List.mem_cons]
              exact Or.inr (by simpa [keysOf] using hc))
        rw [if_pos hc, if_pos hc']
      · have hc' : ¬ ((lookupA m k).isSome = true ∨ k ∈ keysOf ((k0, v0) :: rest)) := by
          push_neg at hc ⊢
          refine ⟨hc.1, ?_⟩
          simp only [keysOf, List.map_cons, List.mem_cons, not_or]
          exact ⟨fun he => h0 he, by simpa [keysOf] using hc.2⟩
        rw [if_neg hc, if_neg hc']

lemma lookupA_foldl_tokens (f : FieldType) (tokens : List Token) :
    ∀ (m : List (Str × List TermPosition)) (k : Str),
    lookupA (tokens.foldl
        (fun m token => extendEntry m token.text [{ position := token.position, field := f }])
        m) k =
      if (lookupA m k).isSome ∨ k ∈ tokens.map Token.text
      then some ((lookupA m k).getD [] ++ possOf tokens f k) else none := by
  induction tokens with
  | nil =>
    intro m k
    cases hm : lookupA m k <;> simp [hm, possOf]
  | cons t rest ih =>
    intro m k
    rw [List.foldl_cons, ih _ k, lookupA_extendEntry]
    by_cases h0 : k = t.text
    · rw [if_pos h0]
      have h1 : (some ((lookupA m t.text).getD [] ++
          [{ position := t.position, field := f }])).isSome = true ∨
          k ∈ List.map Token.text rest := Or.inl rfl
      rw [if_pos h1, Option.getD_some]
      have h2 : (lookupA m k).isSome = true ∨ k ∈ List.map Token.text (t :: rest) := by
        subst h0
        exact Or.inr (by simp)
      rw [if_pos h2, possOf, if_pos h0.symm, List.append_assoc]
      subst h0
      simp
    · have hne : ¬ t.text = k := fun he => h0 he.symm
      rw [if_neg h0, possOf, if_neg hne]
      by_cases hc : (lookupA m k).isSome = true ∨ k ∈ List.map Token.text rest
      · have hc' : (lookupA m k).isSome = true ∨ k ∈ List.map Token.text (t :: rest) := by
          rcases hc with hc | hc
          · exact Or.inl hc
          · exact Or.inr (by simp only [List.map_cons, List.mem_cons]; exact Or.inr hc)
        rw [if_pos hc, if_pos hc']
      · have hc' : ¬ ((lookupA m k).isSome = true ∨ k ∈ List.map Token.text (t :: rest)) := by
          push_neg at hc ⊢
          refine ⟨hc.1, ?_⟩
          simp only [List.map_cons, List.mem_cons, not_or]
          exact ⟨fun he => h0 he, hc.2⟩
        rw [if_neg hc, if_neg hc']

lemma nodup_keysOf_foldl_entries (entries : List (Str × List TermPosition)) :
    ∀ (m : List (Str × List TermPosition)), (keysOf m).Nodup →
    (keysOf (entries.foldl (fun m e => extendEntry m e.1 e.2) m)).Nodup := by
  induction entries with
  | nil => intro m h; exact h
  | cons e rest ih =>
    intro m h
    exact ih _ (nodup_keysOf_extendEntry m e.1 e.2 h)

lemma nodup_keysOf_foldl_tokens (f : FieldType) (tokens : List Token) :
    ∀ (m : List (Str × List TermPosition)), (keysOf m).Nodup →
    (keysOf (tokens.foldl
      (fun m token => extendEntry m token.text [{ position := token.position, field := f }])
      m)).Nodup := by
  induction tokens with
  | nil => intro m h; exact h
  | cons t rest ih =>
    intro m h
    exact ih _ (nodup_keysOf_extendEntry m t.text _ h)

lemma lookupA_foldl_indexAdd (d : Nat) (tp : List (Str × List TermPosition)) :
    ∀ (ix : List (Str × PostingList)) (k : Str), (keysOf tp).Nodup →
    lookupA (tp.foldl (fun ix e => indexAddPosting ix e.1 d e.2) ix) k =
      if k ∈ keysOf tp then
        some (((lookupA ix k).getD (PostingList.new k)).add_posting d (tpOf tp k))
      else lookupA ix k := by
  induction tp with
  | nil =>
    intro ix k h
    simp [keysOf]
  | cons e rest ih =>
    intro ix k h
    obtain ⟨k0, v0⟩ := e
    rw [keysOf, List.map_cons, List.nodup_cons] at h
    rw [List.foldl_cons, ih _ k (by simpa [keysOf] using h.2)]
    by_cases h0 : k = k0
    · subst h0
      have hmem : k ∉ keysOf rest := by simpa [keysOf] using h.1
      rw [if_neg (by simpa [keysOf] using h.1), lookupA_indexAddPosting, if_pos rfl]
      have hk : k ∈ keysOf ((k, v0) :: rest) := by simp [keysOf]
      rw [if_pos hk, tpOf, if_pos rfl, tpOf_of_not_mem rest k hmem, List.append_nil]
    · have hne : ¬ k0 = k := fun he => h0 he.symm
      rw [lookupA_indexAddPosting, if_neg h0]
      by_cases hm : k ∈ keysOf rest
      · have hm' : k ∈ keysOf ((k0, v0) :: rest) := by
          simp only [keysOf, List.map_cons, List.mem_cons]
          exact Or.inr (by simpa [keysOf] using hm)
        rw [if_pos hm, if_pos hm', tpOf, if_neg hne]
      · have hm' : k ∉ keysOf ((k0, v0) :: rest) := by
          simp only [keysOf, List.map_cons, List.mem_cons, not_or]
          exact ⟨h0, by simpa [keysOf] using hm⟩
        rw [if_neg hm, if_neg hm']

/-- The index component of `add_document`, unfolded. -/
lemma add_document_index_def (idx : InvertedIndex) (tbl : CharTables) (title content : Str) :
    (idx.add_document tbl title content).index =
      ((idx.extract_terms tbl content FieldType.Content).foldl (fun m e => extendEntry m e.1 e.2)
        ((idx.extract_terms tbl title FieldType.Title).foldl (fun m e => extendEntry m e.1 e.2)
          [])).foldl
        (fun ix e => indexAddPosting ix e.1 idx.document_store.next_id e.2) idx.index := rfl

lemma extract_terms_def (idx : InvertedIndex) (tbl : CharTables) (text : Str) (f : FieldType) :
    idx.extract_terms tbl text f =
      (idx.tokenizer.tokenize tbl text).foldl
        (fun m token => extendEntry m token.text [{ position := token.position, field := f }])
        [] := rfl

lemma lookupA_extract_terms (idx : InvertedIndex) (tbl : CharTables) (text : Str)
    (f : FieldType) (k : Str) :
    lookupA (idx.extract_terms tbl text f) k =
      if k ∈ (idx.tokenizer.tokenize tbl text).map Token.text
      then some (possOf (idx.tokenizer.tokenize tbl text) f k) else none := by
  rw [extract_terms_def, lookupA_foldl_tokens]
  by_cases hm : k ∈ (idx.tokenizer.tokenize tbl text).map Token.text
  · rw [if_pos (Or.inr hm), if_pos hm]
    simp [lookupA]
  · rw [if_neg (by simp [lookupA, hm]), if_neg hm]

lemma mem_keysOf_extract_terms (idx : InvertedIndex) (tbl : CharTables) (text : Str)
    (f : FieldType) (k : Str) :
    k ∈ keysOf (idx.extract_terms tbl text f) ↔
      k ∈ (idx.tokenizer.tokenize tbl text).map Token.text := by
  constructor
  · intro h
    by_contra hm
    have := lookupA_extract_terms idx tbl text f k
    rw [if_neg hm, lookupA_eq_none_iff] at this
    exact this h
  · intro h
    by_contra hk
    have h2 := (lookupA_eq_none_iff (idx.extract_terms tbl text f) k).2 hk
    rw [lookupA_extract_terms, if_pos h] at h2
    exact Option.noConfusion h2

lemma nodup_keysOf_extract_terms (idx : InvertedIndex) (tbl : CharTables) (text : Str)
    (f : FieldType) :
    (keysOf (idx.extract_terms tbl text f)).Nodup := by
  rw [extract_terms_def]
  exact nodup_keysOf_foldl_tokens f _ [] (by simp [keysOf])

lemma tpOf_extract_terms (idx : InvertedIndex) (tbl : CharTables) (text : Str)
    (f : FieldType) (k : Str) :
    tpOf (idx.extract_terms tbl text f) k = possOf (idx.tokenizer.tokenize tbl text) f k := by
  rw [tpOf_eq_getD _ _ (nodup_keysOf_extract_terms idx tbl text f), lookupA_extract_terms]
  by_cases hm : k ∈ (idx.tokenizer.tokenize tbl text).map Token.text
  · rw [if_pos hm, Option.getD_some]
  · rw [if_neg hm, possOf_of_not_mem _ _ _ hm]
    rfl

lemma mem_retainedTerms (tbl : CharTables) (tok : Tokenizer) (title content : Str) (k : Str) :
    k ∈ retainedTerms tbl tok title content ↔
      k ∈ (tok.tokenize tbl title).map Token.text ∨ k ∈ (tok.tokenize tbl content).map Token.text := by
  rw [retainedTerms, List.map_append, List.mem_append]

/-- The merged per-term position map of one `add_document` call, looked up
at one term: the title-field positions followed by the content-field
positions, present exactly for the retained terms. -/
lemma lookupA_merged_positions (idx : InvertedIndex) (tbl : CharTables)
    (title content : Str) (k : Str) :
    lookupA ((idx.extract_terms tbl content FieldType.Content).foldl
        (fun m e => extendEntry m e.1 e.2)
        ((idx.extract_terms tbl title FieldType.Title).foldl (fun m e => extendEntry m e.1 e.2)
          [])) k =
      if k ∈ retainedTerms tbl idx.tokenizer title content then
        some (possOf (idx.tokenizer.tokenize tbl title) FieldType.Title k ++
          possOf (idx.tokenizer.tokenize tbl content) FieldType.Content k)
      else none := by
  have htp1 : lookupA ((idx.extract_terms tbl title FieldType.Title).foldl
      (fun m e => extendEntry m e.1 e.2) []) k =
      if k ∈ (idx.tokenizer.tokenize tbl title).map Token.text
      then some (possOf (idx.tokenizer.tokenize tbl title) FieldType.Title k) else none := by
    rw [lookupA_foldl_entries]
    by_cases hm : k ∈ keysOf (idx.extract_terms tbl title FieldType.Title)
    · rw [if_pos (Or.inr hm), if_pos ((mem_keysOf_extract_terms idx tbl title _ k).1 hm),
        tpOf_extract_terms]
      simp [lookupA]
    · rw [if_neg (by simp [lookupA, hm]),
        if_neg (fun hc => hm ((mem_keysOf_extract_terms idx tbl title _ k).2 hc))]
  rw [lookupA_foldl_entries, htp1]
  by_cases ht : k ∈ (idx.tokenizer.tokenize tbl title).map Token.text
  · rw [if_pos ht]
    have hr : k ∈ retainedTerms tbl idx.tokenizer title content :=
      (mem_retainedTerms _ _ _ _ _).2 (Or.inl ht)
    have h1 : (some (possOf (idx.tokenizer.tokenize tbl title) FieldType.Title k)).isSome = true ∨
        k ∈ keysOf (idx.extract_terms tbl content FieldType.Content) := Or.inl rfl
    rw [if_pos h1, if_pos hr, Option.getD_some, tpOf_extract_terms]
  · rw [if_neg ht]
    by_cases hc : k ∈ (idx.tokenizer.tokenize tbl content).map Token.text
    · have hr : k ∈ retainedTerms tbl idx.tokenizer title content :=
        (mem_retainedTerms _ _ _ _ _).2 (Or.inr hc)
      rw [if_pos (Or.inr ((mem_keysOf_extract_terms idx tbl content _ k).2 hc)), if_pos hr,
        tpOf_extract_terms, possOf_of_not_mem _ _ _ ht]
      simp
    · have hr : k ∉ retainedTerms tbl idx.tokenizer title content := by
        rw [mem_retainedTerms]
        exact fun hor => hor.elim (fun h => ht h) (fun h => hc h)
      rw [if_neg hr, if_neg]
      simp only [Option.isSome_none, Bool.false_eq_true, false_or]
      exact fun hk => hc ((mem_keysOf_extract_terms idx tbl content _ k).1 hk)

/-- The effect of one `add_document` call on the index map, at every term:
retained terms get exactly one appended posting for the new document id,
carrying the title positions followed by the content positions; all other
terms are untouched. -/
lemma add_document_index_lookup (idx : InvertedIndex) (tbl : CharTables)
    (title content : Str) (k : Str) :
    lookupA (idx.add_document tbl title content).index k =
      if k ∈ retainedTerms tbl idx.tokenizer title content then
        some (((lookupA idx.index k).getD (PostingList.new k)).add_posting
          idx.document_store.next_id
          (possOf (idx.tokenizer.tokenize tbl title) FieldType.Title k ++
           possOf (idx.tokenizer.tokenize tbl content) FieldType.Content k))
      else lookupA idx.index k := by
  rw [add_document_index_def, lookupA_foldl_indexAdd]
  · have hmergedkeys : ∀ k', k' ∈ keysOf ((idx.extract_terms tbl content FieldType.Content).foldl
        (fun m e => extendEntry m e.1 e.2)
        ((idx.extract_terms tbl title FieldType.Title).foldl (fun m e => extendEntry m e.1 e.2)
          [])) ↔ k' ∈ retainedTerms tbl idx.tokenizer title content := by
      intro k'
      constructor
      · intro h
        by_contra hr
        have h2 := lookupA_merged_positions idx tbl title content k'
        rw [if_neg hr, lookupA_eq_none_iff] at h2
        exact h2 h
      · intro hr
        by_contra hk
        have h2 := (lookupA_eq_none_iff _ k').2 hk
        rw [lookupA_merged_positions, if_pos hr] at h2
        exact Option.noConfusion h2
    by_cases hr : k ∈ retainedTerms tbl idx.tokenizer title content
    · rw [if_pos ((hmergedkeys k).2 hr), if_pos hr]
      have htp := tpOf_eq_getD ((idx.extract_terms tbl content FieldType.Content).foldl
          (fun m e => extendEntry m e.1 e.2)
          ((idx.extract_terms tbl title FieldType.Title).foldl (fun m e => extendEntry m e.1 e.2)
            [])) k
        (nodup_keysOf_foldl_entries _ _ (nodup_keysOf_foldl_entries _ _ (by simp [keysOf])))
      rw [htp, lookupA_merged_positions, if_pos hr, Option.getD_some]
    · rw [if_neg (fun hk => hr ((hmergedkeys k).1 hk)), if_neg hr]
  · exact nodup_keysOf_foldl_entries _ _ (nodup_keysOf_foldl_entries _ _ (by simp [keysOf]))

lemma add_document_total_documents (idx : InvertedIndex) (tbl : CharTables)
    (title content : Str) :
    (idx.add_document tbl title content).total_documents = idx.total_documents + 1 := by
  simp [InvertedIndex.add_document, InvertedIndex.total_documents,
    DocumentStore.total_documents, DocumentStore.add_document]

/-- C3: every term retained from `add_document(title, content)` receives
exactly one new posting entry, for the new document id, whose positions are
the title-field position list followed by the content-field position list
(each field numbered independently from 0 by the tokenizer), whose term
frequency is the length of that concatenation, and whose posting list gets
exactly one document-frequency increment — also when the term occurs in
both fields. -/
theorem add_document_single_posting_merged_fields (idx : InvertedIndex)
    (tbl : CharTables) (title content k : Str) (hk : k ∈ retainedTerms tbl idx.tokenizer title content) :
    lookupA (idx.add_document tbl title content).index k =
      some { term := ((lookupA idx.index k).getD (PostingList.new k)).term,
             document_frequency :=
               ((lookupA idx.index k).getD (PostingList.new k)).document_frequency + 1,
             postings := ((lookupA idx.index k).getD (PostingList.new k)).postings ++
               [{ doc_id := idx.document_store.next_id,
                  term_frequency := (possOf (idx.tokenizer.tokenize tbl title) FieldType.Title k ++
                    possOf (idx.tokenizer.tokenize tbl content) FieldType.Content k).length,
                  positions := possOf (idx.tokenizer.tokenize tbl title) FieldType.Title k ++
                    possOf (idx.tokenizer.tokenize tbl content) FieldType.Content k }] } := by
  rw [add_document_index_lookup, if_pos hk]
  rfl

theorem add_document_single_posting_merged_fields_witness :
    "xa".toList ∈ retainedTerms asciiTables InvertedIndex.new.tokenizer [] "xa".toList ∧
    lookupA (InvertedIndex.new.add_document asciiTables [] "xa".toList).index "xa".toList =
      some { term := ((lookupA InvertedIndex.new.index "xa".toList).getD
               (PostingList.new "xa".toList)).term,
             document_frequency := ((lookupA InvertedIndex.new.index "xa".toList).getD
               (PostingList.new "xa".toList)).document_frequency + 1,
             postings := ((lookupA InvertedIndex.new.index "xa".toList).getD
               (PostingList.new "xa".toList)).postings ++
               [{ doc_id := InvertedIndex.new.document_store.next_id,
                  term_frequency :=
                    (possOf (InvertedIndex.new.tokenizer.tokenize asciiTables []) FieldType.Title
                        "xa".toList ++
                      possOf (InvertedIndex.new.tokenizer.tokenize asciiTables "xa".toList) FieldType.Content
                        "xa".toList).length,
                  positions :=
                    possOf (InvertedIndex.new.tokenizer.tokenize asciiTables []) FieldType.Title
                        "xa".toList ++
                      possOf (InvertedIndex.new.tokenizer.tokenize asciiTables "xa".toList) FieldType.Content
                        "xa".toList }] } :=
  ⟨by decide,
   add_document_single_posting_merged_fields InvertedIndex.new asciiTables []
     "xa".toList "xa".toList
     (by decide)⟩

/-- C10: `add_document` only appends — terms not retained from the new
document keep their posting list (or absence) unchanged, every retained
term keeps its previous postings and gains exactly one appended entry for
the new document id, and the total document count grows by exactly one. -/
theorem add_document_append_only (idx : InvertedIndex) (tbl : CharTables)
    (title content : Str) :
    (∀ k, k ∉ retainedTerms tbl idx.tokenizer title content →
      lookupA (idx.add_document tbl title content).index k = lookupA idx.index k) ∧
    (∀ k, k ∈ retainedTerms tbl idx.tokenizer title content →
      ∃ e : PostingEntry, e.doc_id = idx.document_store.next_id ∧
        lookupA (idx.add_document tbl title content).index k =
          some { term := ((lookupA idx.index k).getD (PostingList.new k)).term,
                 document_frequency :=
                   ((lookupA idx.index k).getD (PostingList.new k)).document_frequency + 1,
                 postings :=
                   ((lookupA idx.index k).getD (PostingList.new k)).postings ++ [e] }) ∧
    (idx.add_document tbl title content).total_documents = idx.total_documents + 1 := by
  refine ⟨?_, ?_, add_document_total_documents idx tbl title content⟩
  · intro k hk
    rw [add_document_index_lookup, if_neg hk]
  · intro k hk
    refine ⟨{ doc_id := idx.document_store.next_id,
              term_frequency := (possOf (idx.tokenizer.tokenize tbl title) FieldType.Title k ++
                possOf (idx.tokenizer.tokenize tbl content) FieldType.Content k).length,
              positions := possOf (idx.tokenizer.tokenize tbl title) FieldType.Title k ++
                possOf (idx.tokenizer.tokenize tbl content) FieldType.Content k }, rfl, ?_⟩
    rw [add_document_index_lookup, if_pos hk]
    rfl

theorem add_document_append_only_witness :
    lookupA (InvertedIndex.new.add_document asciiTables [] "xa".toList).index "zz".toList =
      lookupA InvertedIndex.new.index "zz".toList ∧
    (InvertedIndex.new.add_document asciiTables [] "xa".toList).total_documents =
      InvertedIndex.new.total_documents + 1 :=
  ⟨(add_document_append_only InvertedIndex.new asciiTables [] "xa".toList).1 "zz".toList (by decide),
   (add_document_append_only InvertedIndex.new asciiTables [] "xa".toList).2.2⟩

/-! ## Index invariants (claim C4) -/

lemma indexInv_new : IndexInv InvertedIndex.new := by
  intro k pl h
  simp [InvertedIndex.new, lookupA] at h

lemma indexInv_add (idx : InvertedIndex) (tbl : CharTables) (title content : Str)
    (h : IndexInv idx) :
    IndexInv (idx.add_document tbl title content) := by
  intro k pl hpl
  have hnext : (idx.add_document tbl title content).document_store.next_id =
      idx.document_store.next_id + 1 := rfl
  rw [add_document_index_lookup] at hpl
  by_cases hk : k ∈ retainedTerms tbl idx.tokenizer title content
  · rw [if_pos hk] at hpl
    injection hpl with hpl
    subst hpl
    have holdinv : ((lookupA idx.index k).getD (PostingList.new k)).document_frequency =
          ((lookupA idx.index k).getD (PostingList.new k)).postings.length ∧
        (∀ e ∈ ((lookupA idx.index k).getD (PostingList.new k)).postings,
          e.term_frequency = e.positions.length) ∧
        List.Pairwise (fun a b => a.doc_id ≠ b.doc_id)
          ((lookupA idx.index k).getD (PostingList.new k)).postings ∧
        ∀ e ∈ ((lookupA idx.index k).getD (PostingList.new k)).postings,
          e.doc_id < idx.document_store.next_id := by
      cases hl : lookupA idx.index k with
      | none => simp [PostingList.new]
      | some pl0 =>
        rw [Option.getD_some]
        exact h k pl0 hl
    obtain ⟨h1, h2, h3, h4⟩ := holdinv
    rw [hnext]
    refine ⟨?_, ?_, ?_, ?_⟩
    · simp [PostingList.add_posting, h1]
    · intro e he
      simp only [PostingList.add_posting, List.mem_append, List.mem_singleton] at he
      rcases he with he | he
      · exact h2 e he
      · subst he
        rfl
    · simp only [PostingList.add_posting]
      rw [List.pairwise_append]
      refine ⟨h3, List.pairwise_singleton _ _, ?_⟩
      intro a ha b hb
      rw [List.mem_singleton] at hb
      subst hb
      exact Nat.ne_of_lt (h4 a ha)
    · intro e he
      simp only [PostingList.add_posting, List.mem_append, List.mem_singleton] at he
      rcases he with he | he
      · exact Nat.lt_succ_of_lt (h4 e he)
      · subst he
        exact Nat.lt_succ_self _
  · rw [if_neg hk] at hpl
    obtain ⟨h1, h2, h3, h4⟩ := h k pl hpl
    rw [hnext]
    exact ⟨h1, h2, h3, fun e he => Nat.lt_succ_of_lt (h4 e he)⟩

lemma indexInv_foldl (tbl : CharTables) (docs : List (Str × Str)) :
    ∀ idx, IndexInv idx →
      IndexInv (docs.foldl (fun ix p => ix.add_document tbl p.1 p.2) idx) := by
  induction docs with
  | nil => intro idx h; exact h
  | cons p rest ih =>
    intro idx h
    exact ih _ (indexInv_add idx tbl p.1 p.2 h)

lemma indexInv_buildIndex (tbl : CharTables) (docs : List (Str × Str)) :
    IndexInv (buildIndex tbl docs) :=
  indexInv_foldl tbl docs InvertedIndex.new indexInv_new

/-- C4: in every index reachable by `add_document` calls from a fresh index,
each posting list's document frequency equals its number of posting
entries, each entry's term frequency equals the length of its position
list, no document id occurs in two entries of one posting list, and the
document frequency is at least 1 whenever an entry exists (so the TF-IDF
idf division is well defined). -/
theorem buildIndex_posting_list_invariants (tbl : CharTables)
    (docs : List (Str × Str)) (k : Str)
    (pl : PostingList) (h : lookupA (buildIndex tbl docs).index k = some pl) :
    pl.document_frequency = pl.postings.length ∧
    (∀ e ∈ pl.postings, e.term_frequency = e.positions.length) ∧
    List.Pairwise (fun a b => a.doc_id ≠ b.doc_id) pl.postings ∧
    (∀ e ∈ pl.postings, 1 ≤ pl.document_frequency) := by
  obtain ⟨h1, h2, h3, _⟩ := indexInv_buildIndex tbl docs k pl h
  refine ⟨h1, h2, h3, ?_⟩
  intro e he
  rw [h1]
  exact List.length_pos_of_mem he

theorem buildIndex_posting_list_invariants_witness :
    ∃ pl, lookupA (buildIndex asciiTables [([], "xa xa".toList)]).index
        "xa".toList = some pl ∧
      pl.document_frequency = pl.postings.length ∧
      (∀ e ∈ pl.postings, 1 ≤ pl.document_frequency) := by
  cases hl : lookupA (buildIndex asciiTables [([], "xa xa".toList)]).index
      "xa".toList with
  | none => exact absurd hl (by decide)
  | some pl =>
    obtain ⟨h1, -, -, h4⟩ :=
      buildIndex_posting_list_invariants asciiTables [([], "xa xa".toList)]
        "xa".toList pl hl
    exact ⟨pl, rfl, h1, h4⟩

/-! ## Sorting lemmas and claim C5 -/

lemma mem_insertDesc (r x : SearchResult) (l : List SearchResult) :
    x ∈ insertDesc r l ↔ x ∈ r :: l := by
  induction l with
  | nil => simp [insertDesc]
  | cons y ys ih =>
    rw [insertDesc]
    by_cases h : y.score < r.score
    · rw [if_pos h]
    · rw [if_neg h]
      simp only [List.mem_cons] at ih ⊢
      rw [ih]
      tauto

lemma mem_sortDesc_foldl (l : List SearchResult) :
    ∀ (acc : List SearchResult) (x : SearchResult),
      x ∈ l.foldl (fun acc r => insertDesc r acc) acc ↔ x ∈ acc ∨ x ∈ l := by
  induction l with
  | nil => intro acc x; simp
  | cons r rest ih =>
    intro acc x
    rw [List.foldl_cons, ih (insertDesc r acc) x, mem_insertDesc]
    simp only [List.mem_cons]
    tauto

lemma mem_sortDesc (l : List SearchResult) (x : SearchResult) :
    x ∈ sortDesc l ↔ x ∈ l := by
  rw [sortDesc, mem_sortDesc_foldl]
  simp

lemma insertDesc_sorted (r : SearchResult) (l : List SearchResult)
    (h : List.Pairwise (fun a b => b.score ≤ a.score) l) :
    List.Pairwise (fun a b => b.score ≤ a.score) (insertDesc r l) := by
  induction l with
  | nil => simp [insertDesc]
  | cons y ys ih =>
    rw [List.pairwise_cons] at h
    rw [insertDesc]
    by_cases hc : y.score < r.score
    · rw [if_pos hc, List.pairwise_cons]
      refine ⟨?_, List.pairwise_cons.2 h⟩
      intro b hb
      rcases List.mem_cons.1 hb with hb | hb
      · subst hb
        exact le_of_lt hc
      · exact le_trans (h.1 b hb) (le_of_lt hc)
    · rw [if_neg hc, List.pairwise_cons]
      refine ⟨?_, ih h.2⟩
      intro b hb
      rcases List.mem_cons.1 ((mem_insertDesc r b ys).1 hb) with hb' | hb'
      · subst hb'
        exact not_lt.1 hc
      · exact h.1 b hb'

lemma sortDesc_sorted (l : List SearchResult) :
    List.Pairwise (fun a b => b.score ≤ a.score) (sortDesc l) := by
  rw [sortDesc]
  have hgen : ∀ (acc : List SearchResult),
      List.Pairwise (fun a b => b.score ≤ a.score) acc →
      List.Pairwise (fun a b => b.score ≤ a.score)
        (l.foldl (fun acc r => insertDesc r acc) acc) := by
    induction l with
    | nil => intro acc h; exact h
    | cons r rest ih =>
      intro acc h
      exact ih _ (insertDesc_sorted r acc h)
  exact hgen [] (List.Pairwise.nil)

/-- C5: every result of a term query carries the TF-IDF score
`(log10 tf + 1) * log10(total / df)` computed from that document's posting
for the lowercased query term, and the result list is sorted in
non-increasing score order. -/
theorem search_term_scores_and_order (idx : InvertedIndex) (tbl : CharTables) (q : Str) :
    (∀ r ∈ idx.search_term tbl q,
      ∃ pl posting, idx.get_posting_list tbl (tbl.toLowercase q) = some pl ∧
        posting ∈ pl.postings ∧ r.doc_id = posting.doc_id ∧
        r.score = (Real.logb 10 posting.term_frequency + 1) *
          Real.logb 10 (idx.total_documents / (pl.document_frequency : ℝ))) ∧
    List.Pairwise (fun a b => b.score ≤ a.score) (idx.search_term tbl q) := by
  constructor
  · intro r hr
    simp only [InvertedIndex.search_term] at hr
    rw [mem_sortDesc] at hr
    cases hpl : idx.get_posting_list tbl (tbl.toLowercase q) with
    | none =>
      rw [hpl] at hr
      simp at hr
    | some pl =>
      rw [hpl] at hr
      rw [List.mem_filterMap] at hr
      obtain ⟨posting, hmem, hf⟩ := hr
      cases hdoc : idx.get_document posting.doc_id with
      | none =>
        rw [hdoc] at hf
        exact Option.noConfusion hf
      | some doc =>
        rw [hdoc] at hf
        injection hf with hf
        subst hf
        exact ⟨pl, posting, rfl, hmem, rfl, rfl⟩
  · simp only [InvertedIndex.search_term]
    exact sortDesc_sorted _

theorem search_term_scores_and_order_witness :
    List.Pairwise (fun a b => b.score ≤ a.score)
      ((buildIndex asciiTables [([], "xa".toList)]).search_term asciiTables "xa".toList) :=
  (search_term_scores_and_order (buildIndex asciiTables [([], "xa".toList)])
    asciiTables "xa".toList).2

/-! ## Case invariance (claim C8) -/

lemma toNat_ofNat_small (n : Nat) (h : n < 55296) : (Char.ofNat n).toNat = n := by
  have hv : n.isValidChar := Or.inl h
  rw [Char.ofNat, dif_pos hv]
  simp [Char.ofNatAux, Char.toNat, UInt32.toNat, BitVec.toNat_ofNatLt]

lemma char_toLower_toUpper (c : Char) : c.toUpper.toLower = c.toLower := by
  unfold Char.toUpper Char.toLower
  by_cases h : c.toNat ≥ 97 ∧ c.toNat ≤ 122
  · rw [if_pos h]
    have hv : (Char.ofNat (c.toNat - 32)).toNat = c.toNat - 32 :=
      toNat_ofNat_small _ (by omega)
    simp only [hv]
    rw [if_pos (by omega : c.toNat - 32 ≥ 65 ∧ c.toNat - 32 ≤ 90),
      if_neg (by omega : ¬ (c.toNat ≥ 65 ∧ c.toNat ≤ 90))]
    have he : c.toNat - 32 + 32 = c.toNat := by omega
    rw [he, Char.ofNat_toNat]
  · rw [if_neg h]

/-- C8 (amended): the ranked term search depends on the query only through
its lowercased form — any variant of `q` with the same lowercasing (in
particular every ASCII mixed-case variant and, under the ASCII tables,
the character-wise uppercased form) returns the identical result list,
hence identical document-id sets and per-document scores.  The original
claim's unrestricted "fully uppercased form" is false: Unicode
uppercasing is one-to-many (`"ß".to_uppercase() = "SS"`), and
`search_term_uppercase_counterexample` below exhibits the divergence. -/
theorem search_term_case_invariant (idx : InvertedIndex) (tbl : CharTables) (q q' : Str)
    (h : tbl.toLowercase q' = tbl.toLowercase q) :
    idx.search_term tbl q' = idx.search_term tbl q ∧
    idx.search_term asciiTables (q.map Char.toUpper) = idx.search_term asciiTables q := by
  have hupper : asciiTables.toLowercase (q.map Char.toUpper) = asciiTables.toLowercase q := by
    show (q.map Char.toUpper).map Char.toLower = q.map Char.toLower
    rw [List.map_map]
    have hc : Char.toLower ∘ Char.toUpper = Char.toLower := funext char_toLower_toUpper
    rw [hc]
  constructor
  · simp only [InvertedIndex.search_term, h]
  · simp only [InvertedIndex.search_term, hupper]

theorem search_term_case_invariant_witness :
    (buildIndex asciiTables [([], "xa".toList)]).search_term asciiTables "XA".toList =
      (buildIndex asciiTables [([], "xa".toList)]).search_term asciiTables "xa".toList :=
  (search_term_case_invariant (buildIndex asciiTables [([], "xa".toList)]) asciiTables
    "xa".toList "XA".toList (by decide)).1

/-- Counterexample to C8 as stated: over the index of the single document
"ss xx", the query `"ß"` (whose Unicode uppercasing is the two-letter
string `"SS"`) returns no result, while its uppercased form `"SS"`
returns document 0 — the uppercased query and the original return
different document-id sets.  The tables are exact here: Rust lowercases
`'ß'` to itself and every other character involved is ASCII. -/
theorem search_term_uppercase_counterexample :
    ((buildIndex asciiTables [([], "ss xx".toList)]).search_term asciiTables
        ['ß']).map SearchResult.doc_id = [] ∧
    ((buildIndex asciiTables [([], "ss xx".toList)]).search_term asciiTables
        "SS".toList).map SearchResult.doc_id = [0] := by
  constructor
  · rfl
  · rfl

/-! ## Snippets (claim C9) -/

set_option maxRecDepth 40000 in
/-- C9: refuted — the snippet construction CAN take an out-of-range slice.
`str::find` runs on the LOWERCASED content and returns a byte offset into
it, but the code slices the ORIGINAL content with that offset.  Unicode
lowercasing can lengthen a string (`'İ'` U+0130, 2 UTF-8 bytes, lowercases
to `"i̇"` = U+0069 U+0307, 3 bytes), so the offset can exceed the original
length: for the content of sixty `'İ'` followed by `'b'` and the query
`"b"`, the match offset in the lowercased content is byte 180, giving
`start = 130` while `end` is clamped to the content length 121, and
`&content[130..121]` panics (modelled by `none`). -/
theorem generate_snippet_byte_slice_panics :
    findSubB (toUtf8 (dottedTables.toLowercase (List.replicate 60 'İ' ++ ['b'])))
        (toUtf8 (dottedTables.toLowercase ['b'])) = some 180 ∧
    utf8Len (List.replicate 60 'İ' ++ ['b']) = 121 ∧
    generate_snippet_bytes dottedTables (List.replicate 60 'İ' ++ ['b']) ['b'] = none := by
  decide

/-! ## Phrase queries (claim C6) -/

lemma mem_phrase_fold (idx : InvertedIndex) (tbl : CharTables) (rest : List Str) :
    ∀ (cands : List Nat) (d : Nat),
      (d ∈ rest.foldl
        (fun cands term =>
          match idx.get_posting_list tbl (tbl.toLowercase term) with
          | none => []
          | some posting_list =>
            ((posting_list.postings.map PostingEntry.doc_id).filter
              (fun x => cands.contains x)).dedup)
        cands) ↔
      (d ∈ cands ∧ ∀ t ∈ rest, hasPostingFor tbl idx (tbl.toLowercase t) d) := by
  induction rest with
  | nil =>
    intro cands d
    simp
  | cons t ts ih =>
    intro cands d
    rw [List.foldl_cons, ih]
    cases hpl : idx.get_posting_list tbl (tbl.toLowercase t) with
    | none =>
      constructor
      · rintro ⟨hd, -⟩
        exact absurd hd (by simp)
      · rintro ⟨-, hall⟩
        obtain ⟨pl, hpl', -⟩ := hall t (List.mem_cons_self t ts)
        rw [hpl] at hpl'
        exact Option.noConfusion hpl'
    | some pl =>
      constructor
      · rintro ⟨hd, hall⟩
        rw [List.mem_dedup, List.mem_filter] at hd
        refine ⟨by simpa using hd.2, ?_⟩
        intro u hu
        rcases List.mem_cons.1 hu with hu | hu
        · subst hu
          exact ⟨pl, hpl, hd.1⟩
        · exact hall u hu
      · rintro ⟨hd, hall⟩
        obtain ⟨pl', hpl', hmem⟩ := hall t (List.mem_cons_self t ts)
        rw [hpl] at hpl'
        injection hpl' with hpl'
        subst hpl'
        refine ⟨?_, fun u hu => hall u (List.mem_cons_of_mem t hu)⟩
        rw [List.mem_dedup, List.mem_filter]
        exact ⟨hmem, by simpa using hd⟩

/-- C6: a phrase query with an empty term list returns the empty result;
otherwise a document id is in the result exactly when every lowercased
phrase term has a posting for it and the stored document's title-plus-
content text contains the space-joined phrase case-insensitively; and every
returned result has score exactly 1. -/
theorem search_phrase_membership_and_score (idx : InvertedIndex) (tbl : CharTables)
    (terms : List Str) (d : Nat) :
    idx.search_phrase tbl [] = [] ∧
    (∀ r ∈ idx.search_phrase tbl terms, r.score = 1) ∧
    (terms ≠ [] →
      ((∃ r ∈ idx.search_phrase tbl terms, r.doc_id = d) ↔
        ((∀ t ∈ terms, hasPostingFor tbl idx (tbl.toLowercase t) d) ∧
         ∃ doc, idx.get_document d = some doc ∧
           contains_phrase tbl doc.full_text terms = true))) := by
  refine ⟨rfl, ?_, ?_⟩
  · intro r hr
    cases terms with
    | nil => exact absurd hr (by simp [InvertedIndex.search_phrase])
    | cons first rest =>
      simp only [InvertedIndex.search_phrase] at hr
      rw [List.mem_filterMap] at hr
      obtain ⟨c, -, hf⟩ := hr
      split at hf
      · exact Option.noConfusion hf
      · split at hf
        · injection hf with hf
          subst hf
          rfl
        · exact Option.noConfusion hf
  · intro hne
    cases terms with
    | nil => exact absurd rfl hne
    | cons first rest =>
      simp only [InvertedIndex.search_phrase]
      have hcand : ∀ c, (c ∈ rest.foldl
          (fun cands term =>
            match idx.get_posting_list tbl (tbl.toLowercase term) with
            | none => []
            | some posting_list =>
              ((posting_list.postings.map PostingEntry.doc_id).filter
                (fun x => cands.contains x)).dedup)
          (match idx.get_posting_list tbl (tbl.toLowercase first) with
           | none => []
           | some posting_list => (posting_list.postings.map PostingEntry.doc_id).dedup)) ↔
          ∀ t ∈ first :: rest, hasPostingFor tbl idx (tbl.toLowercase t) c := by
        intro c
        rw [mem_phrase_fold]
        cases hpl : idx.get_posting_list tbl (tbl.toLowercase first) with
        | none =>
          constructor
          · rintro ⟨hc, -⟩
            exact absurd hc (by simp)
          · rintro hall
            obtain ⟨pl, hpl', -⟩ := hall first (List.mem_cons_self first rest)
            rw [hpl] at hpl'
            exact Option.noConfusion hpl'
        | some pl =>
          constructor
          · rintro ⟨hc, hall⟩
            intro u hu
            rcases List.mem_cons.1 hu with hu | hu
            · subst hu
              exact ⟨pl, hpl, by simpa using hc⟩
            · exact hall u hu
          · intro hall
            obtain ⟨pl', hpl', hmem⟩ := hall first (List.mem_cons_self first rest)
            rw [hpl] at hpl'
            injection hpl' with hpl'
            subst hpl'
            exact ⟨by simpa using hmem,
              fun u hu => hall u (List.mem_cons_of_mem first hu)⟩
      constructor
      · rintro ⟨r, hr, hrd⟩
        rw [List.mem_filterMap] at hr
        obtain ⟨c, hc, hf⟩ := hr
        split at hf
        · exact Option.noConfusion hf
        · rename_i doc hdoc
          split at hf
          · rename_i hcp
            injection hf with hf
            have hcd : c = d := by
              rw [← hrd, ← hf]
            subst hcd
            exact ⟨(hcand c).1 hc, doc, hdoc, hcp⟩
          · exact Option.noConfusion hf
      · rintro ⟨hall, doc, hdoc, hcp⟩
        refine ⟨{ doc_id := d, score := (1 : ℝ), title := doc.title,
                  snippet := generate_snippet tbl doc.content
                    (List.intercalate [' '] (first :: rest)) },
          ?_, rfl⟩
        rw [List.mem_filterMap]
        refine ⟨d, (hcand d).2 hall, ?_⟩
        simp only [hdoc]
        rw [if_pos hcp]

theorem search_phrase_membership_and_score_witness :
    (∃ r ∈ (buildIndex asciiTables [([], "xa xb".toList)]).search_phrase asciiTables
        [("xa".toList : Str), "xb".toList], r.doc_id = 0) ↔
      ((∀ t ∈ [("xa".toList : Str), "xb".toList],
          hasPostingFor asciiTables (buildIndex asciiTables [([], "xa xb".toList)])
            (asciiTables.toLowercase t) 0) ∧
       ∃ doc, (buildIndex asciiTables [([], "xa xb".toList)]).get_document 0 = some doc ∧
         contains_phrase asciiTables doc.full_text
           [("xa".toList : Str), "xb".toList] = true) :=
  (search_phrase_membership_and_score (buildIndex asciiTables [([], "xa xb".toList)])
    asciiTables [("xa".toList : Str), "xb".toList] 0).2.2 (by decide)

/-! ## Boolean queries (claim C7) -/

lemma lookupN_map_overwrite_ne (m : List (Nat × SearchResult)) (r : SearchResult) (k : Nat)
    (h : k ≠ r.doc_id) :
    lookupN (m.map (fun p => if p.1 = r.doc_id then (p.1, r) else p)) k = lookupN m k := by
  induction m with
  | nil => rfl
  | cons p ps ih =>
    by_cases hp : p.1 = r.doc_id
    · rw [List.map_cons, if_pos hp]
      rw [lookupN, lookupN]
      rw [if_neg (by omega : ¬ p.1 = k), if_neg (by omega : ¬ p.1 = k)]
      exact ih
    · rw [List.map_cons, if_neg hp]
      rw [lookupN, lookupN]
      by_cases hk : p.1 = k
      · rw [if_pos hk, if_pos hk]
      · rw [if_neg hk, if_neg hk]
        exact ih

lemma lookupN_map_overwrite_self (m : List (Nat × SearchResult)) (r : SearchResult)
    (h : (m.map Prod.fst).contains r.doc_id = true) :
    lookupN (m.map (fun p => if p.1 = r.doc_id then (p.1, r) else p)) r.doc_id = some r := by
  induction m with
  | nil => simp at h
  | cons p ps ih =>
    by_cases hp : p.1 = r.doc_id
    · rw [List.map_cons, if_pos hp, lookupN, if_pos hp]
    · rw [List.map_cons, if_neg hp, lookupN, if_neg hp]
      apply ih
      simp only [List.map_cons, List.contains_cons] at h
      rcases Bool.or_eq_true_iff.1 h with h | h
      · exact absurd (Eq.symm (by simpa using h)) hp
      · exact h

lemma lookupN_eq_none_iff (m : List (Nat × SearchResult)) (k : Nat) :
    lookupN m k = none ↔ k ∉ m.map Prod.fst := by
  induction m with
  | nil => simp [lookupN]
  | cons p ps ih =>
    rw [List.map_cons, List.mem_cons, lookupN]
    by_cases h : p.1 = k
    · rw [if_pos h]
      simp [h]
    · rw [if_neg h]
      rw [ih]
      constructor
      · intro hn hor
        rcases hor with hor | hor
        · exact h hor.symm
        · exact hn hor
      · intro hn hm
        exact hn (Or.inr hm)

lemma lookupN_append_none (m1 m2 : List (Nat × SearchResult)) (k : Nat)
    (h : lookupN m1 k = none) : lookupN (m1 ++ m2) k = lookupN m2 k := by
  induction m1 with
  | nil => rfl
  | cons p ps ih =>
    rw [lookupN] at h
    by_cases hp : p.1 = k
    · rw [if_pos hp] at h
      exact Option.noConfusion h
    · rw [if_neg hp] at h
      rw [List.cons_append, lookupN, if_neg hp]
      exact ih h

lemma lookupN_append_single_ne (m : List (Nat × SearchResult)) (r : SearchResult) (k : Nat)
    (h : k ≠ r.doc_id) : lookupN (m ++ [(r.doc_id, r)]) k = lookupN m k := by
  have hne : ¬ r.doc_id = k := fun he => h he.symm
  induction m with
  | nil =>
    simp only [List.nil_append, lookupN, if_neg hne]
  | cons p ps ih =>
    rw [List.cons_append, lookupN, lookupN]
    by_cases hp : p.1 = k
    · rw [if_pos hp, if_pos hp]
    · rw [if_neg hp, if_neg hp]
      exact ih

lemma lookupN_insertResult (m : List (Nat × SearchResult)) (r : SearchResult) (k : Nat) :
    lookupN (insertResult m r) k = if k = r.doc_id then some r else lookupN m k := by
  rw [insertResult]
  by_cases hc : (m.map Prod.fst).contains r.doc_id = true
  · rw [if_pos hc]
    by_cases hk : k = r.doc_id
    · subst hk
      rw [if_pos rfl]
      exact lookupN_map_overwrite_self m r hc
    · rw [if_neg hk]
      exact lookupN_map_overwrite_ne m r k hk
  · rw [if_neg hc]
    by_cases hk : k = r.doc_id
    · subst hk
      have hnone : lookupN m r.doc_id = none := by
        rw [lookupN_eq_none_iff]
        intro hm
        exact hc (by simpa [List.elem_iff] using hm)
      rw [lookupN_append_none m _ r.doc_id hnone, if_pos rfl, lookupN, if_pos rfl]
    · rw [if_neg hk, lookupN_append_single_ne m r k hk]

lemma resultsMapInv_insert (m : List (Nat × SearchResult)) (r : SearchResult)
    (h : ResultsMapInv m) : ResultsMapInv (insertResult m r) := by
  intro p hp
  rw [insertResult] at hp
  by_cases hc : (m.map Prod.fst).contains r.doc_id = true
  · rw [if_pos hc] at hp
    rw [List.mem_map] at hp
    obtain ⟨q, hq, hpq⟩ := hp
    by_cases hqd : q.1 = r.doc_id
    · rw [if_pos hqd] at hpq
      subst hpq
      simpa using hqd.symm
    · rw [if_neg hqd] at hpq
      subst hpq
      exact h q hq
  · rw [if_neg hc] at hp
    rcases List.mem_append.1 hp with hp | hp
    · exact h p hp
    · rw [List.mem_singleton] at hp
      subst hp
      rfl

lemma resultsMapInv_foldl (l : List SearchResult) :
    ∀ m, ResultsMapInv m → ResultsMapInv (l.foldl insertResult m) := by
  induction l with
  | nil => intro m h; exact h
  | cons r rest ih =>
    intro m h
    exact ih _ (resultsMapInv_insert m r h)

lemma lookupN_mem (m : List (Nat × SearchResult)) (k : Nat) (v : SearchResult)
    (h : lookupN m k = some v) : (k, v) ∈ m := by
  induction m with
  | nil => simp [lookupN] at h
  | cons p ps ih =>
    rw [lookupN] at h
    by_cases hp : p.1 = k
    · rw [if_pos hp] at h
      injection h with h
      subst h
      subst hp
      exact List.mem_cons_self _ _
    · rw [if_neg hp] at h
      exact List.mem_cons_of_mem _ (ih h)

lemma lookupN_foldl_isSome_mono (l : List SearchResult) :
    ∀ (m : List (Nat × SearchResult)) (k : Nat), (lookupN m k).isSome = true →
      (lookupN (l.foldl insertResult m) k).isSome = true := by
  induction l with
  | nil => intro m k h; exact h
  | cons r rest ih =>
    intro m k h
    apply ih
    rw [lookupN_insertResult]
    by_cases hk : k = r.doc_id
    · rw [if_pos hk]
      rfl
    · rw [if_neg hk]
      exact h

lemma lookupN_foldl_covers (l : List SearchResult) :
    ∀ (m : List (Nat × SearchResult)) (r : SearchResult), r ∈ l →
      (lookupN (l.foldl insertResult m) r.doc_id).isSome = true := by
  induction l with
  | nil => intro m r h; exact absurd h (List.not_mem_nil r)
  | cons x rest ih =>
    intro m r h
    rcases List.mem_cons.1 h with h | h
    · subst h
      rw [List.foldl_cons]
      apply lookupN_foldl_isSome_mono
      rw [lookupN_insertResult, if_pos rfl]
      rfl
    · rw [List.foldl_cons]
      exact ih _ r h

lemma mem_sorted_filterMap_lookup (allm : List (Nat × SearchResult)) (ids : List Nat) (d : Nat)
    (hinv : ResultsMapInv allm)
    (hcov : ∀ i ∈ ids, (lookupN allm i).isSome = true) :
    (∃ r ∈ sortDesc (ids.filterMap (fun i => lookupN allm i)), r.doc_id = d) ↔ d ∈ ids := by
  constructor
  · rintro ⟨r, hr, hrd⟩
    rw [mem_sortDesc, List.mem_filterMap] at hr
    obtain ⟨i, hi, hl⟩ := hr
    have hri : r.doc_id = i := hinv (i, r) (lookupN_mem _ _ _ hl)
    have hdi : d = i := by rw [← hrd, hri]
    rw [hdi]
    exact hi
  · intro hd
    have hs := hcov d hd
    cases hl : lookupN allm d with
    | none =>
      rw [hl] at hs
      exact Bool.noConfusion hs
    | some r =>
      exact ⟨r, (mem_sortDesc _ _).2 (List.mem_filterMap.2 ⟨d, hd, hl⟩),
        hinv (d, r) (lookupN_mem _ _ _ hl)⟩

/-- C7: a Boolean `NOT` query over exactly two sub-queries returns exactly
the documents of the first sub-query's id set that are not in the second's;
`NOT` with any other number of sub-queries returns the empty result; and a
Boolean query with an empty sub-query list returns the empty result for
every operator, without error. -/
theorem search_boolean_not_and_empty (idx : InvertedIndex) (tbl : CharTables)
    (q1 q2 : Query) (qs : List Query) (op : BooleanOperator) (d : Nat) :
    idx.search_boolean tbl op [] = [] ∧
    (qs.length ≠ 2 → idx.search_boolean tbl BooleanOperator.Not qs = []) ∧
    ((∃ r ∈ idx.search_boolean tbl BooleanOperator.Not [q1, q2], r.doc_id = d) ↔
      ((∃ r ∈ idx.execute_query tbl q1, r.doc_id = d) ∧
        ¬ (∃ r ∈ idx.execute_query tbl q2, r.doc_id = d))) := by
  refine ⟨rfl, ?_, ?_⟩
  · intro hlen
    cases qs with
    | nil => rfl
    | cons q0 qs' =>
      simp only [InvertedIndex.search_boolean, booleanCombine, List.map_cons]
      rw [if_neg (by simp)]
      rw [if_neg (by simpa using hlen)]
      rfl
  · simp only [InvertedIndex.search_boolean, booleanCombine, List.map_cons, List.map_nil]
    rw [if_neg (by simp)]
    rw [if_pos (by simp)]
    rw [show (([(((idx.execute_query tbl q1).map SearchResult.doc_id).dedup),
        (((idx.execute_query tbl q2).map SearchResult.doc_id).dedup)] :
        List (List Nat))[0]!) = ((idx.execute_query tbl q1).map SearchResult.doc_id).dedup from rfl]
    rw [show (([(((idx.execute_query tbl q1).map SearchResult.doc_id).dedup),
        (((idx.execute_query tbl q2).map SearchResult.doc_id).dedup)] :
        List (List Nat))[1]!) = ((idx.execute_query tbl q2).map SearchResult.doc_id).dedup from rfl]
    rw [mem_sorted_filterMap_lookup]
    · rw [diffIds, List.mem_filter, List.mem_dedup, List.mem_map]
      constructor
      · rintro ⟨h1, h2⟩
        refine ⟨h1, ?_⟩
        intro hex
        rw [decide_eq_true_eq] at h2
        apply h2
        rw [List.elem_iff, List.mem_dedup, List.mem_map]
        exact hex
      · rintro ⟨h1, h2⟩
        refine ⟨h1, ?_⟩
        rw [decide_eq_true_eq]
        intro hc
        apply h2
        rw [List.elem_iff, List.mem_dedup, List.mem_map] at hc
        exact hc
    · apply resultsMapInv_foldl
      intro p hp
      exact absurd hp (List.not_mem_nil p)
    · intro i hi
      rw [diffIds, List.mem_filter, List.mem_dedup, List.mem_map] at hi
      obtain ⟨⟨r, hr, hrd⟩, -⟩ := hi
      rw [← hrd]
      apply lookupN_foldl_covers
      simp only [List.flatten, List.append_nil]
      exact List.mem_append.2 (Or.inl hr)

theorem search_boolean_not_and_empty_witness :
    (buildIndex asciiTables [([], "xa".toList)]).search_boolean asciiTables
        BooleanOperator.Not [Query.Term "xa".toList] = [] ∧
    (buildIndex asciiTables [([], "xa".toList)]).search_boolean asciiTables
        BooleanOperator.Or [] = [] :=
  ⟨(search_boolean_not_and_empty (buildIndex asciiTables [([], "xa".toList)]) asciiTables
      (Query.Term "xa".toList)
      (Query.Term "xa".toList) [Query.Term "xa".toList] BooleanOperator.Or 0).2.1
      (by decide),
   (search_boolean_not_and_empty (buildIndex asciiTables [([], "xa".toList)]) asciiTables
      (Query.Term "xa".toList)
      (Query.Term "xa".toList) [Query.Term "xa".toList] BooleanOperator.Or 0).1⟩

/-! ## Wildcard deduplication (claim C1) -/

lemma tfidf_133 : calculate_tfidf 1 3 3 = 0 := by
  unfold calculate_tfidf
  push_cast
  rw [div_self (by norm_num : (3:ℝ) ≠ 0)]
  simp [Real.logb_one]

lemma tfidf_123 : calculate_tfidf 1 2 3 = Real.logb 10 (3/2) := by
  unfold calculate_tfidf
  push_cast
  simp [Real.logb_one]

lemma tfidf_113 : calculate_tfidf 1 1 3 = Real.logb 10 3 := by
  unfold calculate_tfidf
  push_cast
  simp [Real.logb_one]

/-- C1: the wildcard query does NOT deduplicate by document id: it sorts by
score and removes only adjacent duplicates, so on an index of three
documents — document 0 containing terms `xa` and `xc`, documents 1 and 2
containing `xa` and `xb` — the wildcard pattern `x*` returns every
document twice: the duplicates end up score-separated, never adjacent.
This evaluates the code at the failing input and exhibits the violation of
the claimed "exactly one SearchResult per document id". -/
theorem search_wildcard_adjacent_dedup_duplicate :
    ((buildIndex asciiTables [([], "xa xc".toList), ([], "xa xb".toList),
        ([], "xa xb".toList)]).search_wildcard asciiTables "x*".toList).map
      SearchResult.doc_id = [0, 1, 2, 0, 1, 2] := by
  show (dedupByKeyAdj (sortDesc
      ((sortDesc [{ doc_id := 0, score := calculate_tfidf 1 3 3, title := [],
                    snippet := generate_snippet asciiTables "xa xc".toList "xa".toList },
                  { doc_id := 1, score := calculate_tfidf 1 3 3, title := [],
                    snippet := generate_snippet asciiTables "xa xb".toList "xa".toList },
                  { doc_id := 2, score := calculate_tfidf 1 3 3, title := [],
                    snippet := generate_snippet asciiTables "xa xb".toList "xa".toList }] ++
        sortDesc [{ doc_id := 0, score := calculate_tfidf 1 1 3, title := [],
                    snippet := generate_snippet asciiTables "xa xc".toList "xc".toList }]) ++
        sortDesc [{ doc_id := 1, score := calculate_tfidf 1 2 3, title := [],
                    snippet := generate_snippet asciiTables "xa xb".toList "xb".toList },
                  { doc_id := 2, score := calculate_tfidf 1 2 3, title := [],
                    snippet := generate_snippet asciiTables "xa xb".toList "xb".toList }]))).map
      SearchResult.doc_id = [0, 1, 2, 0, 1, 2]
  rw [tfidf_133, tfidf_123, tfidf_113]
  have hBpos : (0:ℝ) < Real.logb 10 (3/2) := Real.logb_pos (by norm_num) (by norm_num)
  have hCpos : (0:ℝ) < Real.logb 10 3 := Real.logb_pos (by norm_num) (by norm_num)
  have hBC : Real.logb 10 (3/2) < Real.logb 10 3 :=
    Real.logb_lt_logb (by norm_num) (by norm_num) (by norm_num)
  have hnCB : ¬ (Real.logb 10 3 < Real.logb 10 (3/2)) := not_lt.2 (le_of_lt hBC)
  simp [sortDesc, insertDesc, dedupByKeyAdj, hBpos, hCpos, hBC, hnCB, lt_irrefl]
